import Mathlib

/-!
Verification of the bairry metadata-resolution library.

Python strings are modelled as `List Char`; `str.lower` is modelled as the
character-wise `Char.toLower` map, `str.strip` as dropping ASCII whitespace
from both ends, and `substring in` / `str.find` via the `firstMatch` scan
below.  Floats are modelled as exact rationals.  Network responses, raw
cache files and digest functions are inputs of the embedded functions, so
every function here is pure and executable.
-/

namespace Bairry

/-- Lower-case a string character-wise, modelling Python `str.lower()`. -/
def lowerL (s : List Char) : List Char := s.map Char.toLower

/-- Whitespace set stripped by Python `str.strip()` (ASCII part). -/
def isPySpace (c : Char) : Bool :=
  c == ' ' || c == '\t' || c == '\n' || c == '\r' || c == '\x0b' || c == '\x0c'

/-- Model of Python `str.strip()`: drop whitespace from both ends. -/
def trimL (s : List Char) : List Char :=
  ((s.dropWhile isPySpace).reverse.dropWhile isPySpace).reverse

/-- Index of the first occurrence of `d` as a contiguous substring of `l`,
modelling Python `str.find` (and, via `isSome`, the `in` operator). -/
def firstMatch (d : List Char) : List Char → Option Nat
  | [] => if d.isPrefixOf [] then some 0 else none
  | c :: cs => if d.isPrefixOf (c :: cs) then some 0 else (firstMatch d cs).map (· + 1)

/-- Delimiter table of `MusicBrainzIntegration.MULTI_ARTIST_DELIMITERS`. -/
def MULTI_ARTIST_DELIMITERS : List (List Char) :=
  [" featuring ".data, " feat. ".data, " ft. ".data,
   " x ".data, " vs ".data, " vs. ".data,
   ", ".data, " and ".data, " & ".data,
   " (".data, ")".data]

/-- One iteration of the delimiter loop in `parse_artist_string`:
if the delimiter occurs case-insensitively, cut before its first occurrence. -/
def cutAtDelim (result d : List Char) : List Char :=
  match firstMatch (lowerL d) (lowerL result) with
  | some idx => result.take idx
  | none => result

/-- Final cleanup of `parse_artist_string`:
`if "(" in result: result = result.split("(")[0]`. -/
def parenCut (result : List Char) : List Char :=
  match firstMatch ['('] result with
  | some idx => result.take idx
  | none => result

/-- Model of `MusicBrainzIntegration.parse_artist_string`: strip, compound
delimiter cuts in table order, cut before a remaining open parenthesis,
strip again. -/
def parse_artist_string (artist_string : List Char) : List Char :=
  let result := trimL artist_string
  let result := MULTI_ARTIST_DELIMITERS.foldl cutAtDelim result
  let result := parenCut result
  trimL result

/-- Delimiter table of `GeniusIntegration._extract_primary_artist`. -/
def geniusDelimiters : List (List Char) :=
  [" featuring ".data, " feat. ".data, " ft. ".data,
   " x ".data, " vs ".data, " vs. ".data,
   " & ".data, " (feat".data, ", ".data, ", feat".data]

/-- Delimiter loop of `_extract_primary_artist`: the first delimiter found
cuts (and strips) the string, and the loop breaks. -/
def firstCut : List (List Char) → List Char → List Char
  | [], a => a
  | d :: ds, a =>
    match firstMatch (lowerL d) (lowerL a) with
    | some idx => trimL (a.take idx)
    | none => firstCut ds a

/-- Model of `GeniusIntegration._extract_primary_artist`: strip, then cut at
the first delimiter of the table that occurs (case-insensitively), stopping
at the first match. -/
def extract_primary_artist (artist_string : List Char) : List Char :=
  firstCut geniusDelimiters (trimL artist_string)

/-! Claim-side normalizer, written from the specification's wording: scan the
delimiter table in list order, truncate before each found delimiter's first
case-insensitive occurrence and continue with the truncated result, then
truncate before any remaining open parenthesis and trim. -/

/-- Claim-side delimiter scan: cuts compound across the whole table. -/
def claimScan : List (List Char) → List Char → List Char
  | [], r => r
  | d :: ds, r =>
    claimScan ds
      (match firstMatch (lowerL d) (lowerL r) with
       | some i => r.take i
       | none => r)

/-- Claim-side normalizer for a given delimiter table. -/
def claimNormalize (delims : List (List Char)) (s : List Char) : List Char :=
  let r := claimScan delims (trimL s)
  let r :=
    match firstMatch ['('] r with
    | some i => r.take i
    | none => r
  trimL r

/-- Claim-side description of the Genius normalizer after amendment: stop at
the first delimiter of the table that occurs, truncating and trimming there;
no parenthesis cleanup. -/
def claimFirstCut : List (List Char) → List Char → List Char
  | [], a => a
  | d :: ds, a =>
    match firstMatch (lowerL d) (lowerL a) with
    | some i => trimL (a.take i)
    | none => claimFirstCut ds a

/-! Basic facts about `firstMatch`. -/

theorem firstMatch_some_le {d l : List Char} {i : Nat}
    (h : firstMatch d l = some i) : i ≤ l.length := by
  induction l generalizing i with
  | nil =>
    simp only [firstMatch] at h
    split at h
    · simp_all
    · simp_all
  | cons c cs ih =>
    simp only [firstMatch] at h
    split at h
    · obtain rfl : (0 : Nat) = i := by simpa using h
      simp
    · rcases Option.map_eq_some'.1 h with ⟨i', hi', rfl⟩
      simpa using Nat.succ_le_succ (ih hi')

theorem firstMatch_some_prefix {d l : List Char} {i : Nat}
    (h : firstMatch d l = some i) : d <+: l.drop i := by
  induction l generalizing i with
  | nil =>
    simp only [firstMatch] at h
    split at h
    · rename_i hp
      obtain rfl : (0 : Nat) = i := by simpa using h
      simpa using hp
    · simp_all
  | cons c cs ih =>
    simp only [firstMatch] at h
    split at h
    · rename_i hp
      obtain rfl : (0 : Nat) = i := by simpa using h
      simpa using hp
    · rcases Option.map_eq_some'.1 h with ⟨i', hi', rfl⟩
      simpa using ih hi'

theorem firstMatch_some_min {d l : List Char} {i : Nat}
    (h : firstMatch d l = some i) : ∀ j < i, ¬ d <+: l.drop j := by
  induction l generalizing i with
  | nil =>
    simp only [firstMatch] at h
    split at h
    · obtain rfl : (0 : Nat) = i := by simpa using h
      omega
    · simp_all
  | cons c cs ih =>
    simp only [firstMatch] at h
    split at h
    · obtain rfl : (0 : Nat) = i := by simpa using h
      omega
    · rename_i hp
      rcases Option.map_eq_some'.1 h with ⟨i', hi', rfl⟩
      intro j hj
      cases j with
      | zero => simpa using hp
      | succ j' =>
        have := ih hi' j' (by omega)
        simpa using this

theorem firstMatch_none_forall {d l : List Char}
    (h : firstMatch d l = none) : ∀ j, ¬ d <+: l.drop j := by
  induction l with
  | nil =>
    simp only [firstMatch] at h
    intro j
    split at h
    · simp_all
    · rename_i hp
      simpa using hp
  | cons c cs ih =>
    simp only [firstMatch] at h
    split at h
    · simp_all
    · rename_i hp
      intro j
      cases j with
      | zero => simpa using hp
      | succ j' =>
        have hnone : firstMatch d cs = none := by
          cases hfm : firstMatch d cs with
          | none => rfl
          | some k => rw [hfm] at h; simp at h
        simpa using ih hnone j'

theorem firstMatch_none_of_forall {d l : List Char}
    (h : ∀ j, ¬ d <+: l.drop j) : firstMatch d l = none := by
  induction l with
  | nil =>
    simp only [firstMatch]
    rw [if_neg]
    simpa using h 0
  | cons c cs ih =>
    simp only [firstMatch]
    rw [if_neg (by simpa using h 0)]
    rw [ih (fun j => by simpa using h (j + 1))]
    rfl

theorem prefix_drop_of_take {d l : List Char} {k j : Nat}
    (h : d <+: (l.take k).drop j) : d <+: l.drop j := by
  rw [List.drop_take] at h
  exact h.trans (List.take_prefix _ _)

theorem prefix_drop_of_drop {d l : List Char} {k j : Nat}
    (h : d <+: (l.drop k).drop j) : d <+: l.drop (k + j) := by
  rwa [List.drop_drop] at h

theorem firstMatch_none_take {d l : List Char} (k : Nat)
    (h : firstMatch d l = none) : firstMatch d (l.take k) = none :=
  firstMatch_none_of_forall fun j hj =>
    firstMatch_none_forall h j (prefix_drop_of_take hj)

theorem firstMatch_none_drop {d l : List Char} (k : Nat)
    (h : firstMatch d l = none) : firstMatch d (l.drop k) = none :=
  firstMatch_none_of_forall fun j hj =>
    firstMatch_none_forall h (k + j) (prefix_drop_of_drop hj)

theorem firstMatch_none_sub {d l : List Char} (a b : Nat)
    (h : firstMatch d l = none) : firstMatch d ((l.drop a).take b) = none :=
  firstMatch_none_take b (firstMatch_none_drop a h)

theorem firstMatch_take_self {d l : List Char} {i : Nat}
    (h : firstMatch d l = some i) (hd : d ≠ []) :
    firstMatch d (l.take i) = none := by
  apply firstMatch_none_of_forall
  intro j hj
  by_cases hji : j < i
  · exact firstMatch_some_min h j hji (prefix_drop_of_take hj)
  · have hlen : (l.take i).length ≤ j := by
      have := List.length_take_le i l
      omega
    rw [List.drop_eq_nil_of_le hlen] at hj
    exact hd (List.prefix_nil.1 hj)

/-! Facts about `trimL`. -/

theorem dropWhile_dropWhile (p : Char → Bool) (l : List Char) :
    List.dropWhile p (List.dropWhile p l) = List.dropWhile p l := by
  induction l with
  | nil => rfl
  | cons c cs ih =>
    by_cases h : p c
    · simp [List.dropWhile_cons, h, ih]
    · simp [List.dropWhile_cons, h]

theorem dropWhile_eq_drop (p : Char → Bool) (l : List Char) :
    ∃ a, List.dropWhile p l = l.drop a := by
  induction l with
  | nil => exact ⟨0, rfl⟩
  | cons c cs ih =>
    by_cases h : p c
    · obtain ⟨a, ha⟩ := ih
      exact ⟨a + 1, by simp [List.dropWhile_cons, h, ha]⟩
    · exact ⟨0, by simp [List.dropWhile_cons, h]⟩

theorem rightTrim_eq_take (p : Char → Bool) (l : List Char) :
    ∃ b, (l.reverse.dropWhile p).reverse = l.take b := by
  obtain ⟨a, ha⟩ := dropWhile_eq_drop p l.reverse
  refine ⟨l.length - a, ?_⟩
  rw [ha, List.drop_reverse, List.reverse_reverse]

theorem trimL_eq_drop_take (s : List Char) :
    ∃ a b, trimL s = (s.drop a).take b := by
  obtain ⟨a, ha⟩ := dropWhile_eq_drop isPySpace s
  obtain ⟨b, hb⟩ := rightTrim_eq_take isPySpace (s.dropWhile isPySpace)
  exact ⟨a, b, by rw [trimL, hb, ha]⟩

theorem dropWhile_head_cases (p : Char → Bool) (l : List Char) :
    List.dropWhile p l = [] ∨
      ∃ c cs, List.dropWhile p l = c :: cs ∧ p c = false := by
  induction l with
  | nil => exact Or.inl rfl
  | cons c cs ih =>
    by_cases h : p c
    · simpa [List.dropWhile_cons, h] using ih
    · exact Or.inr ⟨c, cs, by simp [List.dropWhile_cons, h], by simpa using h⟩

/-- Right-trim only, used to decompose `trimL`. -/
def rightTrim (p : Char → Bool) (l : List Char) : List Char :=
  (l.reverse.dropWhile p).reverse

theorem rightTrim_prefix (p : Char → Bool) (l : List Char) :
    rightTrim p l <+: l := by
  have h : List.dropWhile p l.reverse <:+ l.reverse := List.dropWhile_suffix p
  have := List.reverse_prefix.mpr h
  rwa [List.reverse_reverse] at this

theorem rightTrim_rightTrim (p : Char → Bool) (l : List Char) :
    rightTrim p (rightTrim p l) = rightTrim p l := by
  simp only [rightTrim, List.reverse_reverse]
  rw [dropWhile_dropWhile]

theorem dropWhile_rightTrim_dropWhile (p : Char → Bool) (s : List Char) :
    List.dropWhile p (rightTrim p (List.dropWhile p s)) =
      rightTrim p (List.dropWhile p s) := by
  cases hv : rightTrim p (List.dropWhile p s) with
  | nil => rfl
  | cons c cs =>
    have hpre := rightTrim_prefix p (List.dropWhile p s)
    rw [hv] at hpre
    rcases dropWhile_head_cases p s with h0 | h0
    · rw [h0] at hpre
      exact absurd (List.prefix_nil.1 hpre) (by simp)
    · obtain ⟨c0, cs0, hcons0, hpc0⟩ := h0
      rw [hcons0] at hpre
      obtain ⟨t, ht⟩ := hpre
      have hc : c = c0 := by
        have := congrArg List.head? ht
        simpa using this
      subst hc
      rw [List.dropWhile_cons, hpc0]
      simp

theorem trimL_trimL (s : List Char) : trimL (trimL s) = trimL s := by
  show trimL (rightTrim isPySpace (s.dropWhile isPySpace)) =
      rightTrim isPySpace (s.dropWhile isPySpace)
  rw [trimL, dropWhile_rightTrim_dropWhile]
  exact rightTrim_rightTrim isPySpace _

/-! Invariants of the delimiter loop and the corrected claims C2 and C10. -/

theorem lowerL_take (r : List Char) (i : Nat) :
    lowerL (r.take i) = (lowerL r).take i := List.map_take _ _ _

theorem lowerL_drop (r : List Char) (i : Nat) :
    lowerL (r.drop i) = (lowerL r).drop i := List.map_drop _ _ _

theorem lowerL_ne_nil {d : List Char} (h : d ≠ []) : lowerL d ≠ [] := by
  cases d with
  | nil => exact absurd rfl h
  | cons c cs => simp [lowerL]

theorem firstMatch_nil_right {d : List Char} (h : d ≠ []) :
    firstMatch d [] = none := by
  simp only [firstMatch]
  rw [if_neg]
  simpa [List.prefix_nil] using h

theorem firstMatch_none_cutAtDelim {D r : List Char} (d : List Char)
    (h : firstMatch D (lowerL r) = none) :
    firstMatch D (lowerL (cutAtDelim r d)) = none := by
  unfold cutAtDelim
  cases hfm : firstMatch (lowerL d) (lowerL r) with
  | none => exact h
  | some i =>
    rw [lowerL_take]
    exact firstMatch_none_take i h

theorem firstMatch_none_foldl {D r : List Char} (ds : List (List Char))
    (h : firstMatch D (lowerL r) = none) :
    firstMatch D (lowerL (List.foldl cutAtDelim r ds)) = none := by
  induction ds generalizing r with
  | nil => exact h
  | cons d ds ih =>
    simp only [List.foldl_cons]
    exact ih (firstMatch_none_cutAtDelim d h)

theorem cutAtDelim_self_none {d : List Char} (r : List Char) (hd : d ≠ []) :
    firstMatch (lowerL d) (lowerL (cutAtDelim r d)) = none := by
  unfold cutAtDelim
  cases hfm : firstMatch (lowerL d) (lowerL r) with
  | none => exact hfm
  | some i =>
    rw [lowerL_take]
    exact firstMatch_take_self hfm (lowerL_ne_nil hd)

theorem foldl_cut_all_none {ds : List (List Char)} (r : List Char)
    (hne : ∀ d ∈ ds, d ≠ []) :
    ∀ d ∈ ds, firstMatch (lowerL d) (lowerL (List.foldl cutAtDelim r ds)) = none := by
  induction ds generalizing r with
  | nil => intro d hd; exact absurd hd (by simp)
  | cons d0 ds ih =>
    intro d hd
    simp only [List.foldl_cons]
    rcases List.mem_cons.1 hd with rfl | hmem
    · exact firstMatch_none_foldl ds (cutAtDelim_self_none r (hne d (by simp)))
    · exact ih (cutAtDelim r d0) (fun x hx => hne x (List.mem_cons_of_mem _ hx)) d hmem

theorem firstMatch_none_trimL {D r : List Char}
    (h : firstMatch D (lowerL r) = none) :
    firstMatch D (lowerL (trimL r)) = none := by
  obtain ⟨a, b, hab⟩ := trimL_eq_drop_take r
  rw [hab, lowerL_take, lowerL_drop]
  exact firstMatch_none_sub a b h

theorem firstMatch_none_trimL_raw {D r : List Char}
    (h : firstMatch D r = none) : firstMatch D (trimL r) = none := by
  obtain ⟨a, b, hab⟩ := trimL_eq_drop_take r
  rw [hab]
  exact firstMatch_none_sub a b h

theorem firstMatch_none_parenCut {D r : List Char}
    (h : firstMatch D (lowerL r) = none) :
    firstMatch D (lowerL (parenCut r)) = none := by
  unfold parenCut
  cases hfm : firstMatch ['('] r with
  | none => exact h
  | some i =>
    rw [lowerL_take]
    exact firstMatch_none_take i h

theorem parenCut_no_paren (r : List Char) :
    firstMatch ['('] (parenCut r) = none := by
  unfold parenCut
  cases hfm : firstMatch ['('] r with
  | none => exact hfm
  | some i => exact firstMatch_take_self hfm (by simp)

theorem firstMatch_none_parenCut_raw {D r : List Char}
    (h : firstMatch D r = none) : firstMatch D (parenCut r) = none := by
  unfold parenCut
  cases hfm : firstMatch ['('] r with
  | none => exact h
  | some i => exact firstMatch_none_take i h

theorem cutAtDelim_id {r d : List Char}
    (h : firstMatch (lowerL d) (lowerL r) = none) : cutAtDelim r d = r := by
  unfold cutAtDelim
  rw [h]

theorem foldl_cut_id {ds : List (List Char)} {r : List Char}
    (h : ∀ d ∈ ds, firstMatch (lowerL d) (lowerL r) = none) :
    List.foldl cutAtDelim r ds = r := by
  induction ds with
  | nil => rfl
  | cons d ds ih =>
    simp only [List.foldl_cons]
    rw [cutAtDelim_id (h d (by simp))]
    exact ih fun x hx => h x (List.mem_cons_of_mem _ hx)

theorem parenCut_id {r : List Char} (h : firstMatch ['('] r = none) :
    parenCut r = r := by
  unfold parenCut
  rw [h]

theorem firstCut_id {ds : List (List Char)} {a : List Char}
    (h : ∀ d ∈ ds, firstMatch (lowerL d) (lowerL a) = none) :
    firstCut ds a = a := by
  induction ds with
  | nil => rfl
  | cons d ds ih =>
    simp only [firstCut]
    rw [h d (by simp)]
    exact ih fun x hx => h x (List.mem_cons_of_mem _ hx)

theorem multi_delims_ne_nil : ∀ d ∈ MULTI_ARTIST_DELIMITERS, d ≠ [] := by
  decide

theorem genius_delims_ne_nil : ∀ d ∈ geniusDelimiters, d ≠ [] := by
  decide

/-- Normal form of `parse_artist_string`: no delimiter occurs
(case-insensitively), no open parenthesis occurs, and the result is trimmed. -/
theorem parse_artist_string_normal (s : List Char) :
    (∀ d ∈ MULTI_ARTIST_DELIMITERS,
        firstMatch (lowerL d) (lowerL (parse_artist_string s)) = none) ∧
      firstMatch ['('] (parse_artist_string s) = none ∧
      trimL (parse_artist_string s) = parse_artist_string s := by
  show (∀ d ∈ MULTI_ARTIST_DELIMITERS,
      firstMatch (lowerL d)
        (lowerL (trimL (parenCut (List.foldl cutAtDelim (trimL s) MULTI_ARTIST_DELIMITERS)))) = none) ∧ _ ∧ _
  refine ⟨?_, ?_, trimL_trimL _⟩
  · intro d hd
    exact firstMatch_none_trimL (firstMatch_none_parenCut
      (foldl_cut_all_none (trimL s) multi_delims_ne_nil d hd))
  · exact firstMatch_none_trimL_raw (parenCut_no_paren _)

theorem foldl_eq_claimScan (ds : List (List Char)) (r : List Char) :
    List.foldl cutAtDelim r ds = claimScan ds r := by
  induction ds generalizing r with
  | nil => rfl
  | cons d ds ih =>
    simp only [List.foldl_cons, claimScan]
    exact ih (cutAtDelim r d)

theorem firstCut_eq_claimFirstCut (ds : List (List Char)) (a : List Char) :
    firstCut ds a = claimFirstCut ds a := by
  induction ds with
  | nil => rfl
  | cons d ds ih =>
    simp only [firstCut, claimFirstCut]
    cases firstMatch (lowerL d) (lowerL a) with
    | none => exact ih
    | some i => rfl

/-- C10: the MusicBrainz normalizer is idempotent; equivalently its output
contains no delimiter of the table (case-insensitively), no open
parenthesis, and no surrounding whitespace. -/
theorem parse_artist_string_idempotent : ∀ s : List Char,
    parse_artist_string (parse_artist_string s) = parse_artist_string s ∧
      (∀ d ∈ MULTI_ARTIST_DELIMITERS,
        firstMatch (lowerL d) (lowerL (parse_artist_string s)) = none) ∧
      firstMatch ['('] (parse_artist_string s) = none ∧
      trimL (parse_artist_string s) = parse_artist_string s := by
  intro s
  obtain ⟨h1, h2, h3⟩ := parse_artist_string_normal s
  refine ⟨?_, h1, h2, h3⟩
  show trimL (parenCut (List.foldl cutAtDelim (trimL (parse_artist_string s))
      MULTI_ARTIST_DELIMITERS)) = parse_artist_string s
  rw [h3, foldl_cut_id h1, parenCut_id h2, h3]

/-- Witness for C10 at concrete inputs. -/
theorem parse_artist_string_idempotent_witness :
    parse_artist_string (parse_artist_string "Jay-Z & Linkin Park".data) =
        parse_artist_string "Jay-Z & Linkin Park".data ∧
      firstMatch (lowerL " & ".data)
        (lowerL (parse_artist_string "Jay-Z & Linkin Park".data)) = none :=
  ⟨(parse_artist_string_idempotent ("Jay-Z & Linkin Park".data)).1,
   (parse_artist_string_idempotent ("Jay-Z & Linkin Park".data)).2.1
     (" & ".data) (by decide)⟩

/-- C2 (counterexample): the Genius normalizer stops at the first matching
delimiter instead of compounding (`"A, B & C"` keeps the `", "` cut undone),
and `parse_artist_string` cuts at a bare open parenthesis even though no
delimiter of the table matches, so a no-delimiter input is not returned
unchanged. -/
theorem normalizer_claim_counterexample :
    extract_primary_artist ("A, B & C".data) = "A, B".data ∧
      claimNormalize geniusDelimiters ("A, B & C".data) = "A".data ∧
      parse_artist_string ("A(B".data) = "A".data ∧
      (MULTI_ARTIST_DELIMITERS.all
        (fun d => (firstMatch (lowerL d) (lowerL (trimL ("A(B".data)))).isNone)) = true ∧
      trimL ("A(B".data) = "A(B".data := by
  decide

theorem parse_core_eq_claim (delims : List (List Char)) (s : List Char) :
    trimL (parenCut (List.foldl cutAtDelim (trimL s) delims)) =
      claimNormalize delims s := by
  rw [foldl_eq_claimScan]
  rfl

/-- C2 (amended): `parse_artist_string` implements the claimed compounding
scan with final parenthesis cut and trim; `_extract_primary_artist` instead
stops at the first matching delimiter of its own table (trimming the cut) and
does no parenthesis cleanup; whitespace-only input yields the empty string;
an input where no delimiter matches (and, for the MusicBrainz normalizer, no
open parenthesis occurs) is returned trimmed but otherwise unchanged. -/
theorem normalizers_amended : ∀ s : List Char,
    parse_artist_string s = claimNormalize MULTI_ARTIST_DELIMITERS s ∧
      extract_primary_artist s = claimFirstCut geniusDelimiters (trimL s) ∧
      (trimL s = [] → parse_artist_string s = [] ∧ extract_primary_artist s = []) ∧
      ((∀ d ∈ MULTI_ARTIST_DELIMITERS,
          firstMatch (lowerL d) (lowerL (trimL s)) = none) →
        firstMatch ['('] (trimL s) = none → parse_artist_string s = trimL s) ∧
      ((∀ d ∈ geniusDelimiters,
          firstMatch (lowerL d) (lowerL (trimL s)) = none) →
        extract_primary_artist s = trimL s) := by
  intro s
  refine ⟨?_, ?_, ?_, ?_, ?_⟩
  · exact parse_core_eq_claim MULTI_ARTIST_DELIMITERS s
  · exact firstCut_eq_claimFirstCut geniusDelimiters (trimL s)
  · intro h
    constructor
    · show trimL (parenCut (List.foldl cutAtDelim (trimL s) MULTI_ARTIST_DELIMITERS)) = []
      have hnone : ∀ d ∈ MULTI_ARTIST_DELIMITERS,
          firstMatch (lowerL d) (lowerL ([] : List Char)) = none :=
        fun d hd => firstMatch_nil_right (lowerL_ne_nil (multi_delims_ne_nil d hd))
      rw [h, foldl_cut_id hnone, parenCut_id (firstMatch_nil_right (by simp))]
      rfl
    · show firstCut geniusDelimiters (trimL s) = []
      have hnone : ∀ d ∈ geniusDelimiters,
          firstMatch (lowerL d) (lowerL ([] : List Char)) = none :=
        fun d hd => firstMatch_nil_right (lowerL_ne_nil (genius_delims_ne_nil d hd))
      rw [h, firstCut_id hnone]
  · intro h1 h2
    show trimL (parenCut (List.foldl cutAtDelim (trimL s) MULTI_ARTIST_DELIMITERS)) = trimL s
    rw [foldl_cut_id h1, parenCut_id h2, trimL_trimL]
  · intro h
    exact firstCut_id h

/-- Witness for (the amended) C2 at concrete inputs. -/
theorem normalizers_amended_witness :
    parse_artist_string ("   ".data) = [] ∧
      extract_primary_artist ("   ".data) = [] ∧
      parse_artist_string ("Solo Artist".data) = trimL ("Solo Artist".data) ∧
      extract_primary_artist ("Solo Artist".data) = trimL ("Solo Artist".data) := by
  have h1 := (normalizers_amended ("   ".data)).2.2.1
  have h2 := (normalizers_amended ("Solo Artist".data)).2.2.2.1
  have h3 := (normalizers_amended ("Solo Artist".data)).2.2.2.2
  exact ⟨(h1 (by decide)).1, (h1 (by decide)).2,
    h2 (by decide) (by decide), h3 (by decide)⟩

/-! Cache fingerprint (`GeniusIntegration._get_cache_key`) and claim C1. -/

/-- Pre-digest string of `_get_cache_key`:
`f"{song_title}:{artist_name}".lower()`. -/
def get_cache_key_str (song_title artist_name : List Char) : List Char :=
  lowerL (song_title ++ ':' :: artist_name)

/-- Model of `_get_cache_key`: a stable digest (md5 hexdigest in the source,
modelled as an arbitrary function parameter) of the lower-cased colon-joined
query fields. -/
def get_cache_key (digest : List Char → List Char)
    (song_title artist_name : List Char) : List Char :=
  digest (get_cache_key_str song_title artist_name)

theorem get_cache_key_str_eq (t a : List Char) :
    get_cache_key_str t a = lowerL t ++ ':' :: lowerL a := by
  have hc : Char.toLower ':' = ':' := by decide
  simp [get_cache_key_str, lowerL, hc]

theorem append_colon_inj : ∀ {x y x2 y2 : List Char},
    x ++ ':' :: y = x2 ++ ':' :: y2 → ':' ∉ x → ':' ∉ x2 →
    x = x2 ∧ y = y2 := by
  intro x
  induction x with
  | nil =>
    intro y x2 y2 h hx hx2
    cases x2 with
    | nil => simpa using h
    | cons c cs =>
      simp only [List.nil_append, List.cons_append, List.cons.injEq] at h
      exact absurd (by simp [← h.1]) hx2
  | cons c cs ih =>
    intro y x2 y2 h hx hx2
    cases x2 with
    | nil =>
      simp only [List.cons_append, List.nil_append, List.cons.injEq] at h
      exact absurd (by simp [h.1]) hx
    | cons c2 cs2 =>
      simp only [List.cons_append, List.cons.injEq] at h
      obtain ⟨rfl, htail⟩ := h
      have := ih htail (fun hm => hx (List.mem_cons_of_mem _ hm))
        (fun hm => hx2 (List.mem_cons_of_mem _ hm))
      exact ⟨by rw [this.1], this.2⟩

/-- C1 (counterexample): the colon join produces systematic collisions when a
query field itself contains a colon, independent of the digest: the pairs
`("a:b", "c")` and `("a", "b:c")` differ after lower-casing, yet their
fingerprints coincide for every digest function. -/
theorem cache_key_counterexample :
    get_cache_key_str ("a:b".data) ("c".data) =
        get_cache_key_str ("a".data) ("b:c".data) ∧
      get_cache_key id ("a:b".data) ("c".data) =
        get_cache_key id ("a".data) ("b:c".data) ∧
      ¬(lowerL ("a:b".data) = lowerL ("a".data) ∧
        lowerL ("c".data) = lowerL ("b:c".data)) := by
  decide

/-- C1 (amended): the fingerprint is deterministic and case-insensitive, and
for query pairs whose lower-cased first field contains no colon, distinct
lower-cased pairs give distinct pre-digest strings, so fingerprints can only
collide where the digest itself collides on distinct inputs. -/
theorem cache_key_amended : ∀ (digest : List Char → List Char)
    (t a t2 a2 : List Char),
    (lowerL t = lowerL t2 → lowerL a = lowerL a2 →
      get_cache_key digest t a = get_cache_key digest t2 a2) ∧
      (':' ∉ lowerL t → ':' ∉ lowerL t2 →
        (lowerL t, lowerL a) ≠ (lowerL t2, lowerL a2) →
        get_cache_key_str t a ≠ get_cache_key_str t2 a2) := by
  intro digest t a t2 a2
  constructor
  · intro ht ha
    unfold get_cache_key
    rw [get_cache_key_str_eq, get_cache_key_str_eq, ht, ha]
  · intro hct hct2 hne heq
    rw [get_cache_key_str_eq, get_cache_key_str_eq] at heq
    obtain ⟨h1, h2⟩ := append_colon_inj heq hct hct2
    exact hne (by rw [h1, h2])

/-- Witness for (the amended) C1 at concrete inputs. -/
theorem cache_key_amended_witness :
    get_cache_key id ("Hello".data) ("Adele".data) =
        get_cache_key id ("hello".data) ("ADELE".data) ∧
      get_cache_key_str ("Hello".data) ("Adele".data) ≠
        get_cache_key_str ("Hello".data) ("Drake".data) :=
  ⟨(cache_key_amended id ("Hello".data) ("Adele".data) ("hello".data)
      ("ADELE".data)).1 (by decide) (by decide),
   (cache_key_amended id ("Hello".data) ("Adele".data) ("Hello".data)
      ("Drake".data)).2 (by decide) (by decide) (by decide)⟩

/-! Levenshtein distance.  `lev` is the classic recursive edit distance used
as the claim-side reference; `levenshtein_distance` below is the source's
dynamic-programming implementation. -/

/-- Substitution cost of one character pair. -/
def costChar (a b : Char) : Nat := if a = b then 0 else 1

/-- Claim-side reference: classic Levenshtein distance (minimum number of
single-character insertions, deletions and substitutions). -/
def lev : List Char → List Char → Nat
  | [], t => t.length
  | s, [] => s.length
  | a :: s, b :: t =>
    min (min (lev s (b :: t) + 1) (lev (a :: s) t + 1)) (lev s t + costChar a b)
termination_by s t => s.length + t.length
decreasing_by
  all_goals simp
  all_goals omega

theorem costChar_cases (a b : Char) : costChar a b = 0 ∨ costChar a b = 1 := by
  unfold costChar
  split
  · exact Or.inl rfl
  · exact Or.inr rfl

theorem costChar_comm (a b : Char) : costChar a b = costChar b a := by
  simp [costChar, eq_comm]

theorem lev_nil_left (t : List Char) : lev [] t = t.length := by
  simp [lev]

theorem lev_nil_right (s : List Char) : lev s [] = s.length := by
  cases s <;> simp [lev]

theorem lev_cons_cons (a b : Char) (s t : List Char) :
    lev (a :: s) (b :: t) =
      min (min (lev s (b :: t) + 1) (lev (a :: s) t + 1))
        (lev s t + costChar a b) := by
  simp [lev]

set_option maxHeartbeats 1600000 in
theorem lev_snoc (a b : Char) : ∀ s t : List Char,
    lev (s ++ [a]) (t ++ [b]) =
      min (min (lev s (t ++ [b]) + 1) (lev (s ++ [a]) t + 1))
        (lev s t + costChar a b) := by
  intro s
  induction s with
  | nil =>
    intro t
    induction t with
    | nil =>
      simp only [List.nil_append]
      exact lev_cons_cons a b [] []
    | cons c t' iht =>
      simp only [List.nil_append, List.cons_append] at iht ⊢
      simp only [lev_cons_cons]
      rw [iht]
      simp only [lev_nil_left, lev_nil_right, List.length_cons, List.length_append,
        List.length_nil]
      refine le_antisymm ?_ ?_ <;>
        simp only [le_min_iff, min_le_iff] <;> omega
  | cons a0 s0 ihs =>
    intro t
    induction t with
    | nil =>
      have H2 := ihs []
      simp only [List.nil_append, List.cons_append] at H2 ⊢
      simp only [lev_cons_cons]
      rw [H2]
      simp only [lev_nil_left, lev_nil_right, List.length_cons, List.length_append,
        List.length_nil]
      refine le_antisymm ?_ ?_ <;>
        simp only [le_min_iff, min_le_iff] <;> omega
    | cons c t' iht =>
      have H1 := ihs (c :: t')
      have H2 := ihs t'
      have H3 := iht
      simp only [List.cons_append] at H1 H2 H3 ⊢
      simp only [lev_cons_cons]
      rw [H1, H2, H3]
      refine le_antisymm ?_ ?_ <;>
        simp only [le_min_iff, min_le_iff] <;> omega

theorem lev_rev_aux : ∀ n : Nat, ∀ s t : List Char,
    s.length + t.length ≤ n → lev s.reverse t.reverse = lev s t := by
  intro n
  induction n with
  | zero =>
    intro s t h
    obtain rfl : s = [] := List.length_eq_zero.1 (by omega)
    obtain rfl : t = [] := List.length_eq_zero.1 (by simpa using h)
    rfl
  | succ n ih =>
    intro s t h
    cases s with
    | nil => simp [lev_nil_left]
    | cons a s' =>
      cases t with
      | nil => simp [lev_nil_right]
      | cons b t' =>
        rw [List.reverse_cons, List.reverse_cons, lev_snoc, lev_cons_cons]
        have h1 : lev s'.reverse (t'.reverse ++ [b]) = lev s' (b :: t') := by
          have := ih s' (b :: t')
            (by simp only [List.length_cons] at h ⊢; omega)
          simpa [List.reverse_cons] using this
        have h2 : lev (s'.reverse ++ [a]) t'.reverse = lev (a :: s') t' := by
          have := ih (a :: s') t'
            (by simp only [List.length_cons] at h ⊢; omega)
          simpa [List.reverse_cons] using this
        have h3 : lev s'.reverse t'.reverse = lev s' t' :=
          ih s' t' (by simp only [List.length_cons] at h; omega)
        rw [h1, h2, h3]

theorem lev_reverse (s t : List Char) : lev s.reverse t.reverse = lev s t :=
  lev_rev_aux (s.length + t.length) s t le_rfl

theorem lev_comm_aux : ∀ n : Nat, ∀ s t : List Char,
    s.length + t.length ≤ n → lev s t = lev t s := by
  intro n
  induction n with
  | zero =>
    intro s t h
    obtain rfl : s = [] := List.length_eq_zero.1 (by omega)
    obtain rfl : t = [] := List.length_eq_zero.1 (by simpa using h)
    rfl
  | succ n ih =>
    intro s t h
    cases s with
    | nil => rw [lev_nil_left, lev_nil_right]
    | cons a s' =>
      cases t with
      | nil => rw [lev_nil_left, lev_nil_right]
      | cons b t' =>
        rw [lev_cons_cons, lev_cons_cons]
        have h1 : lev t' (a :: s') = lev (a :: s') t' :=
          (ih (a :: s') t' (by simp only [List.length_cons] at h ⊢; omega)).symm
        have h2 : lev (b :: t') s' = lev s' (b :: t') :=
          (ih s' (b :: t') (by simp only [List.length_cons] at h ⊢; omega)).symm
        have h3 : lev t' s' = lev s' t' :=
          (ih s' t' (by simp only [List.length_cons] at h; omega)).symm
        rw [h1, h2, h3, costChar_comm b a]
        omega

theorem lev_comm (s t : List Char) : lev s t = lev t s :=
  lev_comm_aux (s.length + t.length) s t le_rfl

/-! Source-side dynamic programming implementation of
`MusicBrainzIntegration._levenshtein_distance`. -/

/-- Inner loop of the DP: consumes `s2` and the previous row pairwise,
carrying the last value of the current row
(`insertions = previous_row[j+1] + 1`, `deletions = current_row[j] + 1`,
`substitutions = previous_row[j] + (c1 != c2)`). -/
def levRowAux (c1 : Char) : List Nat → Nat → List Char → List Nat
  | p0 :: p1 :: ps, last, c2 :: cs =>
    let v := min (min (p1 + 1) (last + 1)) (p0 + costChar c1 c2)
    v :: levRowAux c1 (p1 :: ps) v cs
  | _, _, _ => []

/-- Outer loop of the DP: one row per character of `s1`, starting each row
with `i + 1`. -/
def levLoop (s2 : List Char) : List Char → Nat → List Nat → List Nat
  | [], _, prev => prev
  | c1 :: rest, i, prev =>
    levLoop s2 rest (i + 1) ((i + 1) :: levRowAux c1 prev (i + 1) s2)

/-- Model of `MusicBrainzIntegration._levenshtein_distance`: swap so the
first string is the longer one, return the other length if one is empty,
otherwise run the row DP seeded with `range(len(s2) + 1)` and return the last
entry of the final row. -/
def levenshtein_distance (s1 s2 : List Char) : Nat :=
  let p := if s1.length < s2.length then (s2, s1) else (s1, s2)
  if p.2.length = 0 then p.1.length
  else (levLoop p.2 p.1 0 (List.range (p.2.length + 1))).getLastD 0

/-- Semantic content of a DP row: entry `j` is the distance between the
reversed processed prefix `u` of `s1` and the reversed processed prefix of
`s2` (accumulated in `r`), extended across the remaining characters `w`. -/
def rowFrom (u r : List Char) : List Char → List Nat
  | [] => [lev u r]
  | c :: cs => lev u r :: rowFrom u (c :: r) cs

theorem rowFrom_head (w u r : List Char) :
    ∃ l, rowFrom u r w = lev u r :: l := by
  cases w with
  | nil => exact ⟨[], rfl⟩
  | cons c cs => exact ⟨rowFrom u (c :: r) cs, rfl⟩

theorem levRowAux_step (c1 : Char) : ∀ (w r u : List Char),
    lev (c1 :: u) r :: levRowAux c1 (rowFrom u r w) (lev (c1 :: u) r) w =
      rowFrom (c1 :: u) r w := by
  intro w
  induction w with
  | nil => intro r u; rfl
  | cons c2 cs ih =>
    intro r u
    obtain ⟨l, hl⟩ := rowFrom_head cs u (c2 :: r)
    have hv : min (min (lev u (c2 :: r) + 1) (lev (c1 :: u) r + 1))
        (lev u r + costChar c1 c2) = lev (c1 :: u) (c2 :: r) :=
      (lev_cons_cons c1 c2 u r).symm
    show lev (c1 :: u) r ::
        levRowAux c1 (lev u r :: rowFrom u (c2 :: r) cs) (lev (c1 :: u) r)
          (c2 :: cs) = _
    rw [hl]
    show lev (c1 :: u) r ::
        min (min (lev u (c2 :: r) + 1) (lev (c1 :: u) r + 1))
          (lev u r + costChar c1 c2) ::
        levRowAux c1 (lev u (c2 :: r) :: l)
          (min (min (lev u (c2 :: r) + 1) (lev (c1 :: u) r + 1))
            (lev u r + costChar c1 c2)) cs = _
    rw [hv, ← hl, ih (c2 :: r) u]
    rfl

theorem levLoop_rowFrom (s2 : List Char) : ∀ (rest u : List Char),
    levLoop s2 rest u.length (rowFrom u [] s2) =
      rowFrom (rest.reverse ++ u) [] s2 := by
  intro rest
  induction rest with
  | nil => intro u; simp [levLoop]
  | cons c1 rest ih =>
    intro u
    show levLoop s2 rest (u.length + 1)
        ((u.length + 1) :: levRowAux c1 (rowFrom u [] s2) (u.length + 1) s2) = _
    have hlen : u.length + 1 = lev (c1 :: u) [] := by
      rw [lev_nil_right]
      rfl
    rw [hlen, levRowAux_step c1 s2 [] u, ← hlen]
    have := ih (c1 :: u)
    simp only [List.length_cons] at this
    rw [this]
    congr 1
    simp

theorem rowFrom_nil_left : ∀ (w r : List Char),
    rowFrom [] r w = (List.range (w.length + 1)).map (fun j => j + r.length) := by
  intro w
  induction w with
  | nil =>
    intro r
    simp [rowFrom, lev_nil_left, List.range_succ_eq_map]
  | cons c cs ih =>
    intro r
    show lev [] r :: rowFrom [] (c :: r) cs = _
    rw [lev_nil_left, ih (c :: r)]
    have hlen : (c :: cs).length + 1 = (cs.length + 1) + 1 := by simp
    conv_rhs => rw [hlen, List.range_succ_eq_map]
    simp only [List.length_cons, List.map_cons, List.map_map]
    congr 1
    · omega
    · apply List.map_congr_left
      intro j _
      simp only [Function.comp]
      omega

theorem rowFrom_nil_nil (w : List Char) :
    rowFrom [] [] w = List.range (w.length + 1) := by
  rw [rowFrom_nil_left]
  simp

theorem rowFrom_getLastD : ∀ (w u r : List Char) (dflt : Nat),
    (rowFrom u r w).getLastD dflt = lev u (w.reverse ++ r) := by
  intro w
  induction w with
  | nil => intro u r dflt; simp [rowFrom]
  | cons c cs ih =>
    intro u r dflt
    show (lev u r :: rowFrom u (c :: r) cs).getLastD dflt = _
    rw [List.getLastD_cons, ih u (c :: r) (lev u r)]
    congr 1
    simp

theorem levLoop_getLastD (s1 s2 : List Char) :
    (levLoop s2 s1 0 (List.range (s2.length + 1))).getLastD 0 =
      lev s1.reverse s2.reverse := by
  rw [← rowFrom_nil_nil]
  have h0 : (0 : Nat) = ([] : List Char).length := rfl
  rw [h0, levLoop_rowFrom s2 s1 []]
  rw [rowFrom_getLastD]
  simp

/-- The source DP computes the classic Levenshtein distance. -/
theorem levenshtein_distance_eq_lev (s1 s2 : List Char) :
    levenshtein_distance s1 s2 = lev s1 s2 := by
  unfold levenshtein_distance
  by_cases hswap : s1.length < s2.length
  · simp only [if_pos hswap]
    by_cases hnil : s1.length = 0
    · obtain rfl : s1 = [] := List.length_eq_zero.1 hnil
      simp [lev_nil_left]
    · simp only [if_neg hnil]
      rw [levLoop_getLastD, lev_reverse, lev_comm]
  · simp only [if_neg hswap]
    by_cases hnil : s2.length = 0
    · obtain rfl : s2 = [] := List.length_eq_zero.1 hnil
      simp [lev_nil_right]
    · simp only [if_neg hnil]
      rw [levLoop_getLastD, lev_reverse]

/-! Similarity scoring (`MusicBrainzIntegration._calculate_match_score`),
with Python floats modelled as exact rationals. -/

/-- Model of `_calculate_match_score`: exact match 1.0, candidate starts
with query 0.9, query substring of candidate 0.7, otherwise the normalized
edit-distance branch (`similarity * 0.5` when `similarity >= 0.8`, else 0),
all on the lower-cased strings. -/
def calculate_match_score (query candidate : List Char) : ℚ :=
  if lowerL query = lowerL candidate then 1
  else if (lowerL query).isPrefixOf (lowerL candidate) then 9/10
  else if (firstMatch (lowerL query) (lowerL candidate)).isSome then 7/10
  else if max (lowerL query).length (lowerL candidate).length = 0 then 1
  else if 8/10 ≤ 1 - (levenshtein_distance (lowerL query) (lowerL candidate) : ℚ) /
      ((max (lowerL query).length (lowerL candidate).length : ℕ) : ℚ) then
    (1 - (levenshtein_distance (lowerL query) (lowerL candidate) : ℚ) /
      ((max (lowerL query).length (lowerL candidate).length : ℕ) : ℚ)) * (1/2)
  else 0

/-- Claim-side reference heuristic, written from the specification: the same
rule order with the classic `lev` distance and the original input lengths. -/
def scoreClaim (query candidate : List Char) : ℚ :=
  if lowerL query = lowerL candidate then 1
  else if (lowerL query).isPrefixOf (lowerL candidate) then 9/10
  else if (firstMatch (lowerL query) (lowerL candidate)).isSome then 7/10
  else if max query.length candidate.length = 0 then 1
  else if 8/10 ≤ 1 - (lev (lowerL query) (lowerL candidate) : ℚ) /
      ((max query.length candidate.length : ℕ) : ℚ) then
    (1 - (lev (lowerL query) (lowerL candidate) : ℚ) /
      ((max query.length candidate.length : ℕ) : ℚ)) * (1/2)
  else 0

theorem lowerL_length (s : List Char) : (lowerL s).length = s.length :=
  List.length_map _ _

theorem calculate_match_score_nonneg (q c : List Char) :
    0 ≤ calculate_match_score q c := by
  unfold calculate_match_score
  split_ifs with h1 h2 h3 h4 h5
  · norm_num
  · norm_num
  · norm_num
  · norm_num
  · linarith
  · norm_num

theorem calculate_match_score_le_one (q c : List Char) :
    calculate_match_score q c ≤ 1 := by
  unfold calculate_match_score
  split_ifs with h1 h2 h3 h4 h5
  · norm_num
  · norm_num
  · norm_num
  · norm_num
  · have hd : (0 : ℚ) ≤ (levenshtein_distance (lowerL q) (lowerL c) : ℚ) :=
      Nat.cast_nonneg _
    have hm : (0 : ℚ) ≤ ((max (lowerL q).length (lowerL c).length : ℕ) : ℚ) :=
      Nat.cast_nonneg _
    have hdiv : (0 : ℚ) ≤ (levenshtein_distance (lowerL q) (lowerL c) : ℚ) /
        ((max (lowerL q).length (lowerL c).length : ℕ) : ℚ) := div_nonneg hd hm
    linarith
  · norm_num

/-- C5: the similarity score equals the reference heuristic evaluated with
the classic Levenshtein distance (which is the other operand's length when
one operand is empty), and every score lies in [0,1]. -/
theorem calculate_match_score_spec :
    (∀ s : List Char, lev s [] = s.length ∧ lev [] s = s.length) ∧
      ∀ q c : List Char,
        calculate_match_score q c = scoreClaim q c ∧
          0 ≤ calculate_match_score q c ∧ calculate_match_score q c ≤ 1 := by
  refine ⟨fun s => ⟨lev_nil_right s, lev_nil_left s⟩, fun q c => ⟨?_, ?_, ?_⟩⟩
  · unfold calculate_match_score scoreClaim
    rw [levenshtein_distance_eq_lev, lowerL_length, lowerL_length]
  · exact calculate_match_score_nonneg q c
  · exact calculate_match_score_le_one q c

/-! Genre extraction (`MusicBrainzIntegration._extract_genres_from_tags`)
and artist resolution (`MusicBrainzIntegration.resolve_artist`). -/

/-- Model of `_extract_genres_from_tags`.  `tagNames` lists the `name` field
of each `tag-list` entry (`tag_item.get("name", "")`); `genreField` is the
`genre` field (`artist_data.get("genre", "")`).  Python's
`sorted(list(set(genres)))` — the strictly increasing enumeration of the
distinct elements — is realised as sorting the deduplicated list. -/
def extract_genres_from_tags (tagNames : List (List Char))
    (genreField : List Char) : List (List Char) :=
  List.insertionSort (· ≤ ·)
    (if ((tagNames.map (fun n => trimL (lowerL n))).filter
        (fun t => !t.isEmpty && decide (2 < t.length))).isEmpty then
      (if !genreField.isEmpty then
        (List.splitOn ';' genreField).map (fun g => lowerL (trimL g))
      else [])
    else
      (tagNames.map (fun n => trimL (lowerL n))).filter
        (fun t => !t.isEmpty && decide (2 < t.length))).dedup

/-- Candidate artist record from `mb.search_artists` (`id`, `name`). -/
structure Cand where
  mbid : List Char
  name : List Char
deriving DecidableEq

/-- Selection loop of `resolve_artist`: `if score > best_score` updates both
`best_match` and `best_score`, so ties keep the earlier candidate. -/
def selectLoop (q : List Char) : List Cand → Option Cand → ℚ → Option Cand × ℚ
  | [], bm, bs => (bm, bs)
  | cand :: cs, bm, bs =>
    if bs < calculate_match_score q cand.name then
      selectLoop q cs (some cand) (calculate_match_score q cand.name)
    else
      selectLoop q cs bm bs

/-- Upstream MusicBrainz response: a value, a `mb.ResponseError` (classified
by whether its message mentions 429 / rate limit), or another exception. -/
inductive MBResponse (α : Type) where
  | ok (val : α)
  | respError (is429 : Bool)
  | exc

/-- Artist detail record from `mb.get_artist_by_id` (name, tag list, genre
field). -/
structure ArtistDetail where
  name : List Char
  tagNames : List (List Char)
  genreField : List Char

/-- Upstream environment of one `resolve_artist` call. -/
structure MBEnv where
  searchResp : MBResponse (List Cand)
  detailResp : MBResponse ArtistDetail

/-- Failure conditions crossing the `resolve_artist` boundary. -/
inductive ResolveErr where
  | rateLimit
  | apiError
deriving DecidableEq

/-- Resolved artist record returned by `resolve_artist`. -/
structure ResolvedArtist where
  musicbrainz_id : List Char
  canonical_name : List Char
  genres : List (List Char)

/-- Model of `resolve_artist`: normalize, search, score-and-select, check
the confidence threshold, fetch detail, extract genres.  `mb.ResponseError`
is classified as `RateLimitError` when its message mentions 429 / rate
limit, else `APIError`; any other exception becomes `APIError` (including
the `TypeError` of subscripting `best_match = None`, reachable only when
`best_score >= threshold` with no candidate ever exceeding 0). -/
def resolve_artist (env : MBEnv) (artist_name : List Char) (θ : ℚ) :
    Except ResolveErr (Option ResolvedArtist) :=
  match env.searchResp with
  | .respError is429 => .error (if is429 then .rateLimit else .apiError)
  | .exc => .error .apiError
  | .ok cands =>
    if cands.isEmpty then .ok none
    else
      let pair := selectLoop (parse_artist_string artist_name) cands none 0
      if pair.2 < θ then .ok none
      else
        match pair.1 with
        | none => .error .apiError
        | some best =>
          match env.detailResp with
          | .respError is429 => .error (if is429 then .rateLimit else .apiError)
          | .exc => .error .apiError
          | .ok d =>
            .ok (some ⟨best.mbid, d.name,
              extract_genres_from_tags d.tagNames d.genreField⟩)

theorem selectLoop_snd (q : List Char) : ∀ (cands : List Cand)
    (bm : Option Cand) (bs : ℚ),
    (selectLoop q cands bm bs).2 =
      (cands.map (fun cand => calculate_match_score q cand.name)).foldl max bs := by
  intro cands
  induction cands with
  | nil => intro bm bs; rfl
  | cons cand cs ih =>
    intro bm bs
    simp only [selectLoop, List.map_cons, List.foldl_cons]
    by_cases h : bs < calculate_match_score q cand.name
    · rw [if_pos h, ih, max_eq_right h.le]
    · rw [if_neg h, ih, max_eq_left (not_lt.1 h)]

theorem selectLoop_snd_ge (q : List Char) : ∀ (cands : List Cand)
    (bm : Option Cand) (bs : ℚ), bs ≤ (selectLoop q cands bm bs).2 := by
  intro cands
  induction cands with
  | nil => intro bm bs; exact le_refl bs
  | cons cand cs ih =>
    intro bm bs
    simp only [selectLoop]
    by_cases h : bs < calculate_match_score q cand.name
    · rw [if_pos h]
      exact h.le.trans (ih (some cand) _)
    · rw [if_neg h]
      exact ih bm bs

theorem selectLoop_fst_stable (q : List Char) : ∀ (cands : List Cand)
    (bm : Option Cand) (bs : ℚ),
    (selectLoop q cands bm bs).2 = bs → (selectLoop q cands bm bs).1 = bm := by
  intro cands
  induction cands with
  | nil => intro bm bs _; rfl
  | cons cand cs ih =>
    intro bm bs hsnd
    simp only [selectLoop] at hsnd ⊢
    by_cases h : bs < calculate_match_score q cand.name
    · rw [if_pos h] at hsnd
      have := selectLoop_snd_ge q cs (some cand) (calculate_match_score q cand.name)
      rw [hsnd] at this
      exact absurd h (not_lt.2 this)
    · rw [if_neg h] at hsnd ⊢
      exact ih bm bs hsnd

theorem selectLoop_fst_find (q : List Char) : ∀ (cands : List Cand)
    (bm : Option Cand) (bs : ℚ),
    bs < (selectLoop q cands bm bs).2 →
    (selectLoop q cands bm bs).1 =
      cands.find? (fun cand =>
        decide ((selectLoop q cands bm bs).2 ≤
          calculate_match_score q cand.name)) := by
  intro cands
  induction cands with
  | nil =>
    intro bm bs h
    simp only [selectLoop] at h
    exact absurd h (lt_irrefl bs)
  | cons cand cs ih =>
    intro bm bs h
    by_cases hlt : bs < calculate_match_score q cand.name
    · have hloop : selectLoop q (cand :: cs) bm bs =
          selectLoop q cs (some cand) (calculate_match_score q cand.name) := by
        simp only [selectLoop]
        rw [if_pos hlt]
      rw [hloop] at h ⊢
      by_cases hMs : (selectLoop q cs (some cand)
          (calculate_match_score q cand.name)).2 ≤ calculate_match_score q cand.name
      · rw [List.find?_cons_of_pos _ (by simpa using hMs)]
        have hsM := selectLoop_snd_ge q cs (some cand)
          (calculate_match_score q cand.name)
        exact selectLoop_fst_stable q cs (some cand) _ (le_antisymm hMs hsM)
      · rw [List.find?_cons_of_neg _ (by simpa using hMs)]
        exact ih (some cand) _ (not_le.1 hMs)
    · have hloop : selectLoop q (cand :: cs) bm bs = selectLoop q cs bm bs := by
        simp only [selectLoop]
        rw [if_neg hlt]
      rw [hloop] at h ⊢
      have hpred : ¬ ((selectLoop q cs bm bs).2 ≤ calculate_match_score q cand.name) := by
        have hsb : calculate_match_score q cand.name ≤ bs := not_lt.1 hlt
        intro hc
        exact absurd (lt_of_le_of_lt (hc.trans hsb) h) (lt_irrefl _)
      rw [List.find?_cons_of_neg _ (by simpa using hpred)]
      exact ih bm bs h

theorem foldl_max_choice : ∀ (l : List ℚ) (b : ℚ),
    l.foldl max b = b ∨ l.foldl max b ∈ l := by
  intro l
  induction l with
  | nil => intro b; exact Or.inl rfl
  | cons x xs ih =>
    intro b
    simp only [List.foldl_cons]
    rcases ih (max b x) with heq | hmem
    · rcases max_choice b x with hb | hx
      · exact Or.inl (by rw [heq, hb])
      · exact Or.inr (by rw [heq, hx]; exact List.mem_cons_self x xs)
    · exact Or.inr (List.mem_cons_of_mem x hmem)

theorem le_foldl_max_self : ∀ (l : List ℚ) (b : ℚ), b ≤ l.foldl max b := by
  intro l
  induction l with
  | nil => intro b; exact le_refl b
  | cons x xs ih =>
    intro b
    exact (le_max_left b x).trans (ih (max b x))

theorem le_foldl_max_mem : ∀ (l : List ℚ) (b x : ℚ), x ∈ l → x ≤ l.foldl max b := by
  intro l
  induction l with
  | nil => intro b x hx; exact absurd hx (by simp)
  | cons y ys ih =>
    intro b x hx
    rcases List.mem_cons.1 hx with rfl | hmem
    · exact (le_max_right b x).trans (le_foldl_max_self ys (max b x))
    · exact ih (max b y) x hmem

/-- C6: `resolve_artist` scores every candidate against the normalized query,
the running best score is their maximum (floored at the initial 0), a best
score strictly below the threshold yields the absent result (not an error),
and otherwise (for a positive threshold) the selected candidate is the first
candidate attaining the maximum score, which the detail phase turns into the
returned record. -/
theorem resolve_artist_selects_best : ∀ (q : List Char) (θ : ℚ)
    (cands : List Cand), cands ≠ [] →
    (selectLoop (parse_artist_string q) cands none 0).2 =
        (cands.map (fun cand =>
          calculate_match_score (parse_artist_string q) cand.name)).foldl max 0 ∧
      (∀ cand ∈ cands,
        calculate_match_score (parse_artist_string q) cand.name ≤
          (selectLoop (parse_artist_string q) cands none 0).2) ∧
      (∀ env : MBEnv, env.searchResp = .ok cands →
        (selectLoop (parse_artist_string q) cands none 0).2 < θ →
          resolve_artist env q θ = .ok none) ∧
      (0 < θ → θ ≤ (selectLoop (parse_artist_string q) cands none 0).2 →
        (selectLoop (parse_artist_string q) cands none 0).1 =
            cands.find? (fun cand =>
              decide ((selectLoop (parse_artist_string q) cands none 0).2 ≤
                calculate_match_score (parse_artist_string q) cand.name)) ∧
          ∃ best,
            cands.find? (fun cand =>
              decide ((selectLoop (parse_artist_string q) cands none 0).2 ≤
                calculate_match_score (parse_artist_string q) cand.name)) =
              some best ∧
            ∀ env : MBEnv, env.searchResp = .ok cands →
              ∀ d, env.detailResp = .ok d →
                resolve_artist env q θ = .ok (some ⟨best.mbid, d.name,
                  extract_genres_from_tags d.tagNames d.genreField⟩)) := by
  intro q θ cands hne
  have hempty : ¬ (cands.isEmpty = true) := by
    cases cands with
    | nil => exact absurd rfl hne
    | cons a l => simp
  refine ⟨selectLoop_snd _ cands none 0, ?_, ?_, ?_⟩
  · intro cand hc
    rw [selectLoop_snd]
    exact le_foldl_max_mem _ 0 _ (List.mem_map_of_mem _ hc)
  · intro env henv hM
    simp only [resolve_artist, henv]
    rw [if_neg hempty, if_pos hM]
  · intro hθ hM
    have hpos : (0 : ℚ) < (selectLoop (parse_artist_string q) cands none 0).2 :=
      lt_of_lt_of_le hθ hM
    have hfind := selectLoop_fst_find (parse_artist_string q) cands none 0 hpos
    refine ⟨hfind, ?_⟩
    have hsnd := selectLoop_snd (parse_artist_string q) cands none 0
    have hmem : (selectLoop (parse_artist_string q) cands none 0).2 ∈
        cands.map (fun cand =>
          calculate_match_score (parse_artist_string q) cand.name) := by
      rcases foldl_max_choice (cands.map (fun cand =>
        calculate_match_score (parse_artist_string q) cand.name)) 0 with h0 | hm
      · rw [hsnd, h0] at hpos
        exact absurd hpos (lt_irrefl 0)
      · rw [hsnd]
        exact hm
    obtain ⟨cand0, hc0mem, hc0score⟩ := List.mem_map.1 hmem
    have hsome : (cands.find? (fun cand =>
        decide ((selectLoop (parse_artist_string q) cands none 0).2 ≤
          calculate_match_score (parse_artist_string q) cand.name))).isSome :=
      List.find?_isSome.2 ⟨cand0, hc0mem, by simp [hc0score]⟩
    obtain ⟨best, hbest⟩ := Option.isSome_iff_exists.1 hsome
    refine ⟨best, hbest, ?_⟩
    intro env henv d hdet
    simp only [resolve_artist, henv, hdet]
    rw [if_neg hempty, if_neg (not_lt.2 hM), hfind, hbest]

/-- Witness for C6: resolving `"Jay-Z & Linkin Park"` against the candidate
list `[Linkin Park, Jay-Z]` selects the exact match `Jay-Z` even though it is
not first. -/
theorem resolve_artist_selects_best_witness :
    (selectLoop (parse_artist_string ("Jay-Z & Linkin Park".data))
        [⟨"lp".data, "Linkin Park".data⟩, ⟨"jz".data, "Jay-Z".data⟩] none 0).1 =
      List.find? (fun cand =>
        decide ((selectLoop (parse_artist_string ("Jay-Z & Linkin Park".data))
            [⟨"lp".data, "Linkin Park".data⟩, ⟨"jz".data, "Jay-Z".data⟩]
            none 0).2 ≤
          calculate_match_score (parse_artist_string ("Jay-Z & Linkin Park".data))
            cand.name))
        [⟨"lp".data, "Linkin Park".data⟩, ⟨"jz".data, "Jay-Z".data⟩] := by
  have hprim : parse_artist_string ("Jay-Z & Linkin Park".data) = "Jay-Z".data := by
    decide
  have hd : levenshtein_distance (lowerL ("Jay-Z".data))
      (lowerL ("Linkin Park".data)) = 11 := by decide
  have hm : max (lowerL ("Jay-Z".data)).length
      (lowerL ("Linkin Park".data)).length = 11 := by decide
  have s1 : calculate_match_score ("Jay-Z".data) ("Linkin Park".data) = 0 := by
    unfold calculate_match_score
    rw [if_neg (by decide), if_neg (by decide), if_neg (by decide),
      if_neg (by decide), if_neg (by rw [hd, hm]; norm_num)]
  have s2 : calculate_match_score ("Jay-Z".data) ("Jay-Z".data) = 1 := by
    unfold calculate_match_score
    rw [if_pos (by decide)]
  have hM : (4 : ℚ)/5 ≤ (selectLoop (parse_artist_string ("Jay-Z & Linkin Park".data))
      [⟨"lp".data, "Linkin Park".data⟩, ⟨"jz".data, "Jay-Z".data⟩] none 0).2 := by
    rw [hprim]
    simp only [selectLoop, s1, s2]
    norm_num
  exact ((resolve_artist_selects_best ("Jay-Z & Linkin Park".data) (4/5)
      [⟨"lp".data, "Linkin Park".data⟩, ⟨"jz".data, "Jay-Z".data⟩]
      (by simp)).2.2.2 (by norm_num) hM).1

/-! Facts about genre extraction (claim C8). -/

theorem toLower_toNat_eq (n : Nat) (h : Nat.isValidChar n) :
    (Char.ofNat n).toNat = n := by
  simp [Char.ofNat, h, Char.ofNatAux, Char.toNat]
  rfl

theorem toLower_idem (c : Char) : Char.toLower (Char.toLower c) = Char.toLower c := by
  simp only [Char.toLower]
  split
  · rename_i h
    have hv : Nat.isValidChar (c.toNat + 32) := by
      obtain ⟨h1, h2⟩ := h
      left
      have : c.toNat + 32 < 55296 := by omega
      exact_mod_cast this
    rw [toLower_toNat_eq _ hv, if_neg (by omega)]
  · rfl

theorem lowerL_fixed {g : List Char} (h : ∀ c ∈ g, Char.toLower c = c) :
    lowerL g = g := by
  unfold lowerL
  rw [List.map_congr_left h]
  simp

theorem toLower_fixed_of_mem_lowerL {c : Char} {s : List Char}
    (h : c ∈ lowerL s) : Char.toLower c = c := by
  obtain ⟨c0, _, rfl⟩ := List.mem_map.1 h
  exact toLower_idem c0

theorem trimL_subset (u : List Char) : trimL u ⊆ u := by
  obtain ⟨a, b, hab⟩ := trimL_eq_drop_take u
  rw [hab]
  intro c hc
  exact List.drop_subset a u (List.take_subset b _ hc)

theorem lowerL_trimL_lowerL (n : List Char) :
    lowerL (trimL (lowerL n)) = trimL (lowerL n) :=
  lowerL_fixed fun _ hc =>
    toLower_fixed_of_mem_lowerL (trimL_subset (lowerL n) hc)

theorem lowerL_lowerL_trimL (x : List Char) :
    lowerL (lowerL (trimL x)) = lowerL (trimL x) :=
  lowerL_fixed fun _ hc => toLower_fixed_of_mem_lowerL hc

/-- C8: genre extraction keeps exactly the tag names that are longer than
two characters after lower-casing and trimming; only when that filter yields
nothing does it fall back to the semicolon-split genre field; and the result
is always lexicographically sorted, deduplicated and lower-case. -/
theorem extract_genres_from_tags_spec : ∀ (tagNames : List (List Char))
    (genreField : List Char),
    List.Sorted (· ≤ ·) (extract_genres_from_tags tagNames genreField) ∧
      (extract_genres_from_tags tagNames genreField).Nodup ∧
      (∀ g ∈ extract_genres_from_tags tagNames genreField, lowerL g = g) ∧
      (((tagNames.map (fun n => trimL (lowerL n))).filter
          (fun t => !t.isEmpty && decide (2 < t.length))) ≠ [] →
        (∀ g, g ∈ extract_genres_from_tags tagNames genreField ↔
          g ∈ (tagNames.map (fun n => trimL (lowerL n))).filter
            (fun t => !t.isEmpty && decide (2 < t.length))) ∧
        ∀ g ∈ extract_genres_from_tags tagNames genreField, 2 < g.length) ∧
      (((tagNames.map (fun n => trimL (lowerL n))).filter
          (fun t => !t.isEmpty && decide (2 < t.length))) = [] →
        (genreField ≠ [] →
          ∀ g, g ∈ extract_genres_from_tags tagNames genreField ↔
            g ∈ (List.splitOn ';' genreField).map (fun x => lowerL (trimL x))) ∧
        (genreField = [] → extract_genres_from_tags tagNames genreField = [])) := by
  intro tagNames genreField
  have hperm : ∀ (l : List (List Char)),
      List.Perm (List.insertionSort (· ≤ ·) l.dedup) l.dedup :=
    fun l => List.perm_insertionSort _ _
  have hmem : ∀ (l : List (List Char)) (g : List Char),
      g ∈ List.insertionSort (· ≤ ·) l.dedup ↔ g ∈ l := by
    intro l g
    rw [(hperm l).mem_iff, List.mem_dedup]
  refine ⟨List.sorted_insertionSort _ _, (hperm _).symm.nodup (List.nodup_dedup _),
    ?_, ?_, ?_⟩
  · intro g hg
    unfold extract_genres_from_tags at hg
    rw [hmem] at hg
    split at hg
    · split at hg
      · obtain ⟨x, _, rfl⟩ := List.mem_map.1 hg
        exact lowerL_lowerL_trimL x
      · exact absurd hg (by simp)
    · have := (List.mem_filter.1 hg).1
      obtain ⟨n, _, rfl⟩ := List.mem_map.1 this
      exact lowerL_trimL_lowerL n
  · intro hne
    have hcond : ¬ (((tagNames.map (fun n => trimL (lowerL n))).filter
        (fun t => !t.isEmpty && decide (2 < t.length))).isEmpty = true) := by
      simpa [List.isEmpty_iff] using hne
    constructor
    · intro g
      unfold extract_genres_from_tags
      rw [hmem]
      rw [if_neg hcond]
    · intro g hg
      unfold extract_genres_from_tags at hg
      rw [hmem, if_neg hcond] at hg
      have := (List.mem_filter.1 hg).2
      simp only [Bool.and_eq_true, decide_eq_true_eq] at this
      exact this.2
  · intro hnil
    have hcond : (((tagNames.map (fun n => trimL (lowerL n))).filter
        (fun t => !t.isEmpty && decide (2 < t.length))).isEmpty = true) := by
      simp [List.isEmpty_iff, hnil]
    constructor
    · intro hgf g
      unfold extract_genres_from_tags
      rw [hmem, if_pos hcond, if_pos (by simpa [List.isEmpty_iff] using hgf)]
    · intro hgf
      subst hgf
      unfold extract_genres_from_tags
      rw [if_pos hcond]
      simp

/-- Witness for C8 at concrete inputs. -/
theorem extract_genres_from_tags_witness :
    ("rock".data ∈ extract_genres_from_tags
        ["Rock".data, "a".data, "Pop".data] [] ↔
      "rock".data ∈ (["Rock".data, "a".data, "Pop".data].map
          (fun n => trimL (lowerL n))).filter
        (fun t => !t.isEmpty && decide (2 < t.length))) ∧
      extract_genres_from_tags [] [] = [] :=
  ⟨((extract_genres_from_tags_spec ["Rock".data, "a".data, "Pop".data] []).2.2.2.1
      (by decide)).1 ("rock".data),
   ((extract_genres_from_tags_spec [] []).2.2.2.2 (by decide)).2 rfl⟩

/-! Genius lyrics path (`GeniusIntegration`): cache, search and the
`get_lyrics` state machine.  Network responses and the raw state of the cache
file for the queried fingerprint are inputs. -/

/-- Cached record shapes: the negative marker `{"not_found": true}` or a
lyrics record (whose `lyrics` key may be absent, hence `Option`). -/
inductive CacheVal where
  | notFoundMarker
  | entry (lyrics : Option (List Char))
deriving DecidableEq

/-- Raw state of the cache file for one fingerprint. -/
inductive RawCacheFile where
  | missing
  | corrupt
  | stored (v : CacheVal)
deriving DecidableEq

/-- Model of `_read_cache`: a missing file or an unparsable one (the
`except` branch) reads as `None`, a cache miss. -/
def read_cache : RawCacheFile → Option CacheVal
  | .missing => none
  | .corrupt => none
  | .stored v => some v

/-- Model of `_write_cache`: an I/O failure is caught and logged, leaving
the file unchanged; otherwise the record is stored. -/
def write_cache (ioFails : Bool) (current : RawCacheFile) (v : CacheVal) :
    RawCacheFile :=
  if ioFails then current else .stored v

/-- Song record extracted from a search hit. -/
structure SongData where
  url : List Char
  title : List Char
  artist : List Char
deriving DecidableEq

/-- Response of the transport for the search request (the retry adapter is
the external `ResilientClient`; the repository's own tests model a
rate-limited upstream as the session returning a response with status 429). -/
inductive SearchOutcome where
  | ok (hits : List SongData)
  | status429
  | transportError
  | otherError
deriving DecidableEq

/-- Failure conditions of the Genius module (`RateLimitError`,
`LyricsNotFoundError`). -/
inductive GeniusErr where
  | rateLimit
  | notFoundErr
deriving DecidableEq

/-- Model of `search_song`: status 429 raises `RateLimitError`; a transport
error or any other exception raises `LyricsNotFoundError`; otherwise the
first hit (if any) is returned.  The outgoing query string (built from the
title and `_extract_primary_artist` of the artist) is part of the modelled
environment. -/
def search_song (resp : SearchOutcome) : Except GeniusErr (Option SongData) :=
  match resp with
  | .ok hits => .ok hits.head?
  | .status429 => .error .rateLimit
  | .transportError => .error .notFoundErr
  | .otherError => .error .notFoundErr

/-- Upstream environment of one `get_lyrics` call: the cache file under the
query's fingerprint, the search response, the fetch outcome (`fetch_lyrics`
either raises `LyricsNotFoundError` or returns the lyrics text), and whether
the cache write would fail with an I/O error. -/
structure LyricsEnv where
  cacheFile : RawCacheFile
  searchResp : SearchOutcome
  fetchResp : Except Unit (List Char)
  writeFails : Bool

/-- Observable outcome of one `get_lyrics` call: the returned value or
raised condition, the cache file afterwards, and how many search and fetch
calls were made. -/
structure GetLyricsResult where
  result : Except GeniusErr (Option (List Char))
  cacheAfter : RawCacheFile
  searchCalls : Nat
  fetchCalls : Nat

/-- Model of `get_lyrics`: cache hit short-circuits (negative marker gives
`None`, otherwise the stored `lyrics` value); on a miss, search; a
`RateLimitError` re-raises without caching; no hit or a
`LyricsNotFoundError` (from search or fetch) caches the negative marker and
returns `None`; success caches and returns the lyrics. -/
def get_lyrics (env : LyricsEnv) : GetLyricsResult :=
  match read_cache env.cacheFile with
  | some .notFoundMarker => ⟨.ok none, env.cacheFile, 0, 0⟩
  | some (.entry l) => ⟨.ok l, env.cacheFile, 0, 0⟩
  | none =>
    match search_song env.searchResp with
    | .error .rateLimit => ⟨.error .rateLimit, env.cacheFile, 1, 0⟩
    | .error .notFoundErr =>
      ⟨.ok none, write_cache env.writeFails env.cacheFile .notFoundMarker, 1, 0⟩
    | .ok none =>
      ⟨.ok none, write_cache env.writeFails env.cacheFile .notFoundMarker, 1, 0⟩
    | .ok (some _) =>
      match env.fetchResp with
      | .error _ =>
        ⟨.ok none, write_cache env.writeFails env.cacheFile .notFoundMarker, 1, 1⟩
      | .ok lyr =>
        ⟨.ok (some lyr),
          write_cache env.writeFails env.cacheFile (.entry (some lyr)), 1, 1⟩

/-- Outcome a cache hit must reproduce. -/
def cached_outcome : CacheVal → Option (List Char)
  | .notFoundMarker => none
  | .entry l => l

/-- C3: with the search endpoint rate-limited (status 429) and no cache
entry for the query, `get_lyrics` raises the distinct RateLimit condition —
not the absent outcome — and writes nothing to the cache. -/
theorem get_lyrics_rate_limited : ∀ env : LyricsEnv,
    read_cache env.cacheFile = none → env.searchResp = .status429 →
    get_lyrics env = ⟨.error .rateLimit, env.cacheFile, 1, 0⟩ := by
  intro env hread hresp
  unfold get_lyrics
  rw [hread, hresp]
  rfl

/-- Witness for C3 at a concrete environment. -/
theorem get_lyrics_rate_limited_witness :
    get_lyrics ⟨.missing, .status429, .ok [], false⟩ =
      ⟨.error .rateLimit, .missing, 1, 0⟩ :=
  get_lyrics_rate_limited ⟨.missing, .status429, .ok [], false⟩ rfl rfl

/-- C7: a cache hit short-circuits: `get_lyrics` makes no search or fetch
call, leaves the cache unchanged, and returns the cached outcome (absent for
the negative marker, the stored lyrics otherwise). -/
theorem get_lyrics_cache_hit : ∀ (env : LyricsEnv) (v : CacheVal),
    read_cache env.cacheFile = some v →
    get_lyrics env = ⟨.ok (cached_outcome v), env.cacheFile, 0, 0⟩ := by
  intro env v hread
  unfold get_lyrics
  rw [hread]
  cases v <;> rfl

/-- Witness for C7 at concrete environments (both a negative marker and a
stored lyrics record, with live search mocks that must not be called). -/
theorem get_lyrics_cache_hit_witness :
    get_lyrics ⟨.stored .notFoundMarker, .ok [⟨"u".data, "t".data, "a".data⟩],
        .ok ("text".data), false⟩ =
      ⟨.ok none, .stored .notFoundMarker, 0, 0⟩ ∧
    get_lyrics ⟨.stored (.entry (some ("la la".data))),
        .ok [⟨"u".data, "t".data, "a".data⟩], .ok ("text".data), false⟩ =
      ⟨.ok (some ("la la".data)), .stored (.entry (some ("la la".data))), 0, 0⟩ :=
  ⟨get_lyrics_cache_hit _ .notFoundMarker rfl,
   get_lyrics_cache_hit _ (.entry (some ("la la".data))) rfl⟩

/-- C9: cache I/O failures never affect the outcome: reads of a missing or
corrupt record are a plain miss (the total functions return `none`, nothing
is raised), a failing write changes neither the returned result nor the
upstream calls made, and a corrupt cache file behaves exactly like a missing
one. -/
theorem cache_failures_harmless :
    (read_cache .missing = none ∧ read_cache .corrupt = none) ∧
      (∀ (cf : RawCacheFile) (sr : SearchOutcome)
          (fr : Except Unit (List Char)) (b b' : Bool),
        (get_lyrics ⟨cf, sr, fr, b⟩).result = (get_lyrics ⟨cf, sr, fr, b'⟩).result ∧
        (get_lyrics ⟨cf, sr, fr, b⟩).searchCalls =
          (get_lyrics ⟨cf, sr, fr, b'⟩).searchCalls ∧
        (get_lyrics ⟨cf, sr, fr, b⟩).fetchCalls =
          (get_lyrics ⟨cf, sr, fr, b'⟩).fetchCalls) ∧
      (∀ (sr : SearchOutcome) (fr : Except Unit (List Char)) (b : Bool),
        (get_lyrics ⟨.corrupt, sr, fr, b⟩).result =
          (get_lyrics ⟨.missing, sr, fr, b⟩).result ∧
        (get_lyrics ⟨.corrupt, sr, fr, b⟩).searchCalls =
          (get_lyrics ⟨.missing, sr, fr, b⟩).searchCalls ∧
        (get_lyrics ⟨.corrupt, sr, fr, b⟩).fetchCalls =
          (get_lyrics ⟨.missing, sr, fr, b⟩).fetchCalls) := by
  refine ⟨⟨rfl, rfl⟩, ?_, ?_⟩
  · intro cf sr fr b b'
    unfold get_lyrics
    cases hread : read_cache cf with
    | some v => cases v <;> exact ⟨rfl, rfl, rfl⟩
    | none =>
      cases sr with
      | ok hits =>
        cases hits with
        | nil => exact ⟨rfl, rfl, rfl⟩
        | cons h hs =>
          cases fr <;> exact ⟨rfl, rfl, rfl⟩
      | status429 => exact ⟨rfl, rfl, rfl⟩
      | transportError => exact ⟨rfl, rfl, rfl⟩
      | otherError => exact ⟨rfl, rfl, rfl⟩
  · intro sr fr b
    unfold get_lyrics
    cases sr with
    | ok hits =>
      cases hits with
      | nil => exact ⟨rfl, rfl, rfl⟩
      | cons h hs =>
        cases fr <;> exact ⟨rfl, rfl, rfl⟩
    | status429 => exact ⟨rfl, rfl, rfl⟩
    | transportError => exact ⟨rfl, rfl, rfl⟩
    | otherError => exact ⟨rfl, rfl, rfl⟩

/-- C4 (counterexample): a search-step transport failure that is not a rate
limit is not propagated by the lyrics resolver: `get_lyrics` converts it
into the absent outcome and caches a negative marker. -/
theorem propagation_counterexample :
    get_lyrics ⟨.missing, .transportError, .ok [], false⟩ =
      ⟨.ok none, .stored .notFoundMarker, 1, 0⟩ := rfl

/-- C4 (amended): for the MusicBrainz resolver, RateLimit and the generic
API failure cross the boundary as distinct catchable conditions and a
no-match is the absent value; for the lyrics resolver, RateLimit propagates
distinctly and uncached, but any other upstream failure is converted into
the absent/not-found outcome (with a negative cache entry) instead of
propagating, so the only failure crossing `get_lyrics` is RateLimit. -/
theorem propagation_amended : ∀ (env : MBEnv) (q : List Char) (θ : ℚ)
    (genv : LyricsEnv),
    (env.searchResp = .respError true → resolve_artist env q θ = .error .rateLimit) ∧
      (env.searchResp = .respError false → resolve_artist env q θ = .error .apiError) ∧
      (env.searchResp = .exc → resolve_artist env q θ = .error .apiError) ∧
      (env.searchResp = .ok [] → resolve_artist env q θ = .ok none) ∧
      (read_cache genv.cacheFile = none → genv.searchResp = .status429 →
        (get_lyrics genv).result = .error .rateLimit ∧
          (get_lyrics genv).cacheAfter = genv.cacheFile) ∧
      (read_cache genv.cacheFile = none → genv.searchResp = .transportError →
        (get_lyrics genv).result = .ok none ∧
          (get_lyrics genv).cacheAfter =
            write_cache genv.writeFails genv.cacheFile .notFoundMarker) ∧
      (∀ e, (get_lyrics genv).result = .error e → e = .rateLimit) := by
  intro env q θ genv
  refine ⟨?_, ?_, ?_, ?_, ?_, ?_, ?_⟩
  · intro h
    simp [resolve_artist, h]
  · intro h
    simp [resolve_artist, h]
  · intro h
    simp [resolve_artist, h]
  · intro h
    simp [resolve_artist, h]
  · intro hread hresp
    unfold get_lyrics
    rw [hread, hresp]
    exact ⟨rfl, rfl⟩
  · intro hread hresp
    unfold get_lyrics
    rw [hread, hresp]
    exact ⟨rfl, rfl⟩
  · intro e he
    unfold get_lyrics at he
    cases hread : read_cache genv.cacheFile with
    | some v =>
      rw [hread] at he
      cases v <;> simp at he
    | none =>
      rw [hread] at he
      cases hresp : genv.searchResp with
      | ok hits =>
        rw [hresp] at he
        cases hits with
        | nil => simp [search_song] at he
        | cons h hs =>
          simp only [search_song, List.head?] at he
          cases hfr : genv.fetchResp with
          | error u => rw [hfr] at he; simp at he
          | ok lyr => rw [hfr] at he; simp at he
      | status429 =>
        rw [hresp] at he
        simp [search_song] at he
        exact he.symm
      | transportError =>
        rw [hresp] at he
        simp [search_song] at he
      | otherError =>
        rw [hresp] at he
        simp [search_song] at he

/-- Witness for (the amended) C4 at concrete environments. -/
theorem propagation_amended_witness :
    resolve_artist ⟨.respError true, .exc⟩ [] 1 = .error .rateLimit ∧
      resolve_artist ⟨.respError false, .exc⟩ [] 1 = .error .apiError ∧
      resolve_artist ⟨.exc, .exc⟩ [] 1 = .error .apiError ∧
      resolve_artist ⟨.ok [], .exc⟩ [] 1 = .ok none ∧
      (get_lyrics ⟨.missing, .status429, .ok [], false⟩).result =
        .error .rateLimit ∧
      (get_lyrics ⟨.missing, .transportError, .ok [], false⟩).result = .ok none :=
  ⟨(propagation_amended ⟨.respError true, .exc⟩ [] 1
      ⟨.missing, .ok [], .ok [], false⟩).1 rfl,
   (propagation_amended ⟨.respError false, .exc⟩ [] 1
      ⟨.missing, .ok [], .ok [], false⟩).2.1 rfl,
   (propagation_amended ⟨.exc, .exc⟩ [] 1
      ⟨.missing, .ok [], .ok [], false⟩).2.2.1 rfl,
   (propagation_amended ⟨.ok [], .exc⟩ [] 1
      ⟨.missing, .ok [], .ok [], false⟩).2.2.2.1 rfl,
   ((propagation_amended ⟨.exc, .exc⟩ [] 1
      ⟨.missing, .status429, .ok [], false⟩).2.2.2.2.1 rfl rfl).1,
   ((propagation_amended ⟨.exc, .exc⟩ [] 1
      ⟨.missing, .transportError, .ok [], false⟩).2.2.2.2.2.1 rfl rfl).1⟩

end Bairry
